import Mathlib

/-!
Formal model of the single-file neural machine translation pipeline in
`NMT.py`: vocabulary construction (`loadVoc` plus the torchtext `vocab`
factory and `set_default_index`), the batch collator (`generate_batch`
plus `pad_sequence`), the sequence-to-sequence driver (`Seq2Seq.forward`),
the train/evaluate loops, the BLEU helper (`testBleuScore`), and the
checkpoint logic of the command-line driver.

Tensors are modelled as nested lists (time-major, matching the source),
token indices as natural numbers, logits as rationals, and loss values as
reals where the cross-entropy involves log/exp.  Framework primitives
used by the source (`pad_sequence`, `nn.CrossEntropyLoss` with
`ignore_index`, the torchtext `vocab` factory) are modelled by their
documented semantics; the learned networks (encoder, decoder) are
parameters of the driver model, since their internals are framework
tensor code.
-/

set_option autoImplicit false

namespace NMT

/-! ### Driver checkpoint loop (train mode, `__main__`) -/

/-- Per-epoch save decisions of the train-mode epoch loop.  The source
initialises `old_loss = 0` before the loop and never reassigns it; each
epoch saves a checkpoint exactly when `old_loss > train_loss`. -/
def trainSaveGo (old_loss : ℚ) : List ℚ → List Bool
  | [] => []
  | l :: ls => decide (old_loss > l) :: trainSaveGo old_loss ls

/-- Save decisions across a whole train-mode run, one per epoch loss,
with `old_loss` starting at 0 as in the source. -/
def trainModeSaves (losses : List ℚ) : List Bool :=
  trainSaveGo 0 losses

/-! ### Batch collator (`generate_batch` plus `pad_sequence`) -/

/-- Bracketing done inside `generate_batch`: `torch.cat` of the BOS
marker, the raw index sequence, and the EOS marker. -/
def bracket (bos eos : ℕ) (xs : List ℕ) : List ℕ :=
  bos :: (xs ++ [eos])

/-- Maximum sequence length in a batch (0 for an empty batch), as used by
`pad_sequence` to choose the common padded length. -/
def batchMaxLen (l : List (List ℕ)) : ℕ :=
  (l.map List.length).foldr max 0

/-- Right padding of one sequence to length `L` with the padding index,
as `pad_sequence` does. -/
def padTo (pad L : ℕ) (xs : List ℕ) : List ℕ :=
  xs ++ List.replicate (L - xs.length) pad

/-- Model of `generate_batch`: bracket every German and English index
sequence with BOS/EOS, then pad each language batch to its own maximum
length with the padding index.  A batch is represented as its list of
columns (one padded sequence per batch element); `pad_sequence` merely
stacks these columns time-major. -/
def generate_batch (bos eos pad : ℕ) (data : List (List ℕ × List ℕ)) :
    List (List ℕ) × List (List ℕ) :=
  let de_batch := data.map (fun p => bracket bos eos p.1)
  let en_batch := data.map (fun p => bracket bos eos p.2)
  (de_batch.map (padTo pad (batchMaxLen de_batch)),
   en_batch.map (padTo pad (batchMaxLen en_batch)))

lemma length_le_batchMaxLen {xs : List ℕ} {l : List (List ℕ)} (h : xs ∈ l) :
    xs.length ≤ batchMaxLen l := by
  induction l with
  | nil => cases h
  | cons y ys ih =>
    rcases List.mem_cons.1 h with rfl | h
    · simp only [batchMaxLen, List.map_cons, List.foldr_cons]
      exact le_max_left _ _
    · simp only [batchMaxLen, List.map_cons, List.foldr_cons]
      exact le_trans (ih h) (le_max_right _ _)

lemma batchMaxLen_bracket (bos eos : ℕ) (data : List (List ℕ)) (h : data ≠ []) :
    batchMaxLen (data.map (bracket bos eos)) = batchMaxLen data + 2 := by
  induction data with
  | nil => cases h rfl
  | cons x xs ih =>
    cases xs with
    | nil => simp [batchMaxLen, bracket]
    | cons y ys =>
      have hih := ih (by simp)
      simp only [List.map_cons, batchMaxLen, List.foldr_cons] at hih ⊢
      rw [hih]
      have hx : (bracket bos eos x).length = x.length + 2 := by
        simp [bracket]
      rw [hx, Nat.add_max_add_right]

lemma trainSaveGo_false (losses : List ℚ) (h : ∀ l ∈ losses, 0 ≤ l) :
    ∀ b ∈ trainSaveGo 0 losses, b = false := by
  induction losses with
  | nil => intro b hb; cases hb
  | cons l ls ih =>
    intro b hb
    rcases List.mem_cons.1 hb with rfl | hb
    · have hl : (0 : ℚ) ≤ l := h l (by simp)
      simp [not_lt.2 hl]
    · exact ih (fun x hx => h x (List.mem_cons_of_mem _ hx)) b hb

/-- C1: in train mode, for every sequence of non-negative per-epoch
losses, the checkpoint-save branch never executes: the guard compares
the loss against `old_loss`, which is initialised to 0 and never
reassigned, so `old_loss > train_loss` is unsatisfiable when every loss
is non-negative. -/
theorem checkpoint_save_never_fires (losses : List ℚ)
    (h : ∀ l ∈ losses, 0 ≤ l) :
    ∀ b ∈ trainModeSaves losses, b = false :=
  trainSaveGo_false losses h

/-- Witness for C1 at the concrete loss sequence [1, 0, 3/2]. -/
theorem checkpoint_save_never_fires_witness :
    (∀ l ∈ ([1, 0, 3/2] : List ℚ), 0 ≤ l) ∧
      ∀ b ∈ trainModeSaves [1, 0, 3/2], b = false :=
  ⟨by norm_num, checkpoint_save_never_fires [1, 0, 3/2] (by norm_num)⟩

lemma padTo_bracket (bos eos pad M : ℕ) (xs : List ℕ) :
    padTo pad (M + 2) (bracket bos eos xs)
      = bos :: (xs ++ [eos] ++ List.replicate (M - xs.length) pad) := by
  simp only [padTo, bracket, List.length_cons, List.length_append,
    List.length_singleton, List.length_nil, List.cons_append, List.nil_append,
    List.append_assoc]
  have h2 : M + 2 - (xs.length + 1 + 1) = M - xs.length := by omega
  rw [h2]

lemma generate_batch_fst (bos eos pad : ℕ) (data : List (List ℕ × List ℕ))
    (h : data ≠ []) :
    (generate_batch bos eos pad data).1
      = data.map (fun p => bos :: (p.1 ++ [eos] ++
          List.replicate (batchMaxLen (data.map Prod.fst) - p.1.length) pad)) := by
  have hmap : data.map (fun p => bracket bos eos p.1)
      = (data.map Prod.fst).map (bracket bos eos) := by
    simp [List.map_map]
  have hne : data.map Prod.fst ≠ [] := by
    cases data with
    | nil => cases h rfl
    | cons a l => simp
  have hdef : (generate_batch bos eos pad data).1
      = (data.map (fun p => bracket bos eos p.1)).map
          (padTo pad (batchMaxLen (data.map (fun p => bracket bos eos p.1)))) :=
    rfl
  rw [hdef, hmap, batchMaxLen_bracket bos eos _ hne, List.map_map, List.map_map]
  congr 1
  funext p
  simp only [Function.comp_apply]
  exact padTo_bracket bos eos pad _ p.1

lemma generate_batch_snd (bos eos pad : ℕ) (data : List (List ℕ × List ℕ))
    (h : data ≠ []) :
    (generate_batch bos eos pad data).2
      = data.map (fun p => bos :: (p.2 ++ [eos] ++
          List.replicate (batchMaxLen (data.map Prod.snd) - p.2.length) pad)) := by
  have hmap : data.map (fun p => bracket bos eos p.2)
      = (data.map Prod.snd).map (bracket bos eos) := by
    simp [List.map_map]
  have hne : data.map Prod.snd ≠ [] := by
    cases data with
    | nil => cases h rfl
    | cons a l => simp
  have hdef : (generate_batch bos eos pad data).2
      = (data.map (fun p => bracket bos eos p.2)).map
          (padTo pad (batchMaxLen (data.map (fun p => bracket bos eos p.2)))) :=
    rfl
  rw [hdef, hmap, batchMaxLen_bracket bos eos _ hne, List.map_map, List.map_map]
  congr 1
  funext p
  simp only [Function.comp_apply]
  exact padTo_bracket bos eos pad _ p.2

/-- C3: for every non-empty batch, `generate_batch` returns, per
language, sequences that are the original index sequence with exactly
one prepended start marker and one appended end marker (also for empty
input sequences), right-padded with the padding index, and every
sequence of a language has length (maximum input length in the batch
for that language) + 2. -/
theorem generate_batch_bracket_pad (bos eos pad : ℕ)
    (data : List (List ℕ × List ℕ)) (h : data ≠ []) :
    ((generate_batch bos eos pad data).1
        = data.map (fun p => bos :: (p.1 ++ [eos] ++
            List.replicate (batchMaxLen (data.map Prod.fst) - p.1.length) pad))
      ∧ (generate_batch bos eos pad data).2
        = data.map (fun p => bos :: (p.2 ++ [eos] ++
            List.replicate (batchMaxLen (data.map Prod.snd) - p.2.length) pad)))
    ∧ (∀ col ∈ (generate_batch bos eos pad data).1,
        col.length = batchMaxLen (data.map Prod.fst) + 2)
    ∧ ∀ col ∈ (generate_batch bos eos pad data).2,
        col.length = batchMaxLen (data.map Prod.snd) + 2 := by
  refine ⟨⟨generate_batch_fst bos eos pad data h,
          generate_batch_snd bos eos pad data h⟩, ?_, ?_⟩
  · intro col hcol
    rw [generate_batch_fst bos eos pad data h] at hcol
    rcases List.mem_map.1 hcol with ⟨p, hp, rfl⟩
    have hle : p.1.length ≤ batchMaxLen (data.map Prod.fst) :=
      length_le_batchMaxLen (List.mem_map_of_mem Prod.fst hp)
    simp only [List.length_cons, List.length_append, List.length_singleton,
      List.length_nil, List.length_replicate]
    omega
  · intro col hcol
    rw [generate_batch_snd bos eos pad data h] at hcol
    rcases List.mem_map.1 hcol with ⟨p, hp, rfl⟩
    have hle : p.2.length ≤ batchMaxLen (data.map Prod.snd) :=
      length_le_batchMaxLen (List.mem_map_of_mem Prod.snd hp)
    simp only [List.length_cons, List.length_append, List.length_singleton,
      List.length_nil, List.length_replicate]
    omega

/-- Concrete two-element batch, with an empty target sequence, used by
the collator witness. -/
def demoBatch : List (List ℕ × List ℕ) :=
  [([5], []), ([6, 7], [8])]

theorem generate_batch_bracket_pad_witness :
    demoBatch ≠ [] ∧
      (((generate_batch 2 3 1 demoBatch).1
          = demoBatch.map (fun p => 2 :: (p.1 ++ [3] ++
              List.replicate (batchMaxLen (demoBatch.map Prod.fst)
                - p.1.length) 1))
        ∧ (generate_batch 2 3 1 demoBatch).2
          = demoBatch.map (fun p => 2 :: (p.2 ++ [3] ++
              List.replicate (batchMaxLen (demoBatch.map Prod.snd)
                - p.2.length) 1)))
      ∧ (∀ col ∈ (generate_batch 2 3 1 demoBatch).1,
          col.length = batchMaxLen (demoBatch.map Prod.fst) + 2)
      ∧ ∀ col ∈ (generate_batch 2 3 1 demoBatch).2,
          col.length = batchMaxLen (demoBatch.map Prod.snd) + 2) :=
  ⟨by decide, generate_batch_bracket_pad 2 3 1 demoBatch (by decide)⟩

/-! ### Vocabulary builder (`loadVoc`, torchtext `vocab` factory,
`set_default_index`) -/

/-- Reserved symbols passed as `specials` to the torchtext `vocab`
factory by `loadVoc`. -/
def specials : List String :=
  ["<unk>", "<pad>", "<bos>", "<eos>"]

/-- Token stream of a corpus: every line tokenized, concatenated in file
order, as the `counter.update(tokenizer(s))` loop reads the file. -/
def tokenStream (tok : String → List String) (corpus : List String) :
    List String :=
  (corpus.map tok).flatten

/-- Accumulating pass over the token stream: a token already seen is
skipped, an unseen token is appended and remembered, exactly as the
`Counter` built by `loadVoc` inserts a key the first time it is seen. -/
def dedupFirstAux : List String → List String → List String
  | _, [] => []
  | seen, x :: xs =>
    if x ∈ seen then dedupFirstAux seen xs
    else x :: dedupFirstAux (x :: seen) xs

/-- Distinct tokens of a stream in order of first occurrence: the
iteration order of the `Counter` built by `loadVoc` (a Python dict
iterates in insertion order).  The counts themselves do not matter
downstream because the `vocab` factory keeps every token with count at
least `min_freq = 1`. -/
def dedupFirst (l : List String) : List String :=
  dedupFirstAux [] l

/-- Index-to-token list of the finalized vocabulary: the torchtext
`vocab` factory pops the special symbols from the counter, prepends them
(`special_first` defaults to true), and keeps the remaining tokens in
counter order. -/
def loadVoc (tok : String → List String) (corpus : List String) :
    List String :=
  specials ++ (dedupFirst (tokenStream tok corpus)).filter
    (fun t => decide (t ∉ specials))

/-- Position of a token in the index-to-token list (first occurrence). -/
def tokenIndex : List String → String → ℕ
  | [], _ => 0
  | x :: xs, t => if x = t then 0 else tokenIndex xs t + 1

/-- Vocabulary lookup after `set_default_index(vocab[unk])`: a present
token resolves to its own index, an absent token to the index of the
unknown symbol; every lookup returns, none raises. -/
def vocabLookup (v : List String) (t : String) : ℕ :=
  if t ∈ v then tokenIndex v t else tokenIndex v "<unk>"

lemma mem_dedupFirstAux (a : String) (l : List String) :
    ∀ seen : List String, a ∈ dedupFirstAux seen l ↔ a ∈ l ∧ a ∉ seen := by
  induction l with
  | nil =>
    intro seen
    simp [dedupFirstAux]
  | cons x xs ih =>
    intro seen
    by_cases hx : x ∈ seen
    · simp only [dedupFirstAux, if_pos hx, ih, List.mem_cons]
      constructor
      · rintro ⟨h1, h2⟩
        exact ⟨Or.inr h1, h2⟩
      · rintro ⟨h1 | h1, h2⟩
        · exact absurd (h1 ▸ hx) h2
        · exact ⟨h1, h2⟩
    · simp only [dedupFirstAux, if_neg hx, List.mem_cons, ih]
      by_cases hax : a = x
      · subst hax
        simp [hx]
      · simp [hax]

lemma mem_dedupFirst (a : String) (l : List String) :
    a ∈ dedupFirst l ↔ a ∈ l := by
  rw [dedupFirst, mem_dedupFirstAux]
  simp

lemma tokenIndex_append_of_mem {a : String} {l₁ : List String}
    (l₂ : List String) (h : a ∈ l₁) :
    tokenIndex (l₁ ++ l₂) a = tokenIndex l₁ a := by
  induction l₁ with
  | nil => cases h
  | cons x xs ih =>
    by_cases hx : x = a
    · simp [tokenIndex, hx]
    · rcases List.mem_cons.1 h with rfl | h2
      · exact absurd rfl hx
      · simp [tokenIndex, hx, ih h2]

lemma tokenIndex_inj {v : List String} {a b : String} (ha : a ∈ v)
    (hb : b ∈ v) (hab : a ≠ b) : tokenIndex v a ≠ tokenIndex v b := by
  induction v with
  | nil => cases ha
  | cons x xs ih =>
    by_cases hxa : x = a
    · have hxb : ¬x = b := fun hc => hab (hxa ▸ hc ▸ rfl)
      simp [tokenIndex, hxa, hab]
    · by_cases hxb : x = b
      · subst hxb
        simp [tokenIndex, if_neg hxa]
      · have ha2 : a ∈ xs := by
          rcases List.mem_cons.1 ha with rfl | h2
          · exact absurd rfl hxa
          · exact h2
        have hb2 : b ∈ xs := by
          rcases List.mem_cons.1 hb with rfl | h2
          · exact absurd rfl hxb
          · exact h2
        have := ih ha2 hb2
        simp only [tokenIndex, hxa, hxb, if_false]
        omega

lemma mem_loadVoc (tok : String → List String) (corpus : List String)
    {t : String} (hs : t ∉ specials) :
    t ∈ loadVoc tok corpus ↔ t ∈ tokenStream tok corpus := by
  rw [loadVoc, List.mem_append]
  constructor
  · rintro (h | h)
    · exact absurd h hs
    · exact (mem_dedupFirst t _).1 (List.mem_filter.1 h).1
  · intro h
    refine Or.inr (List.mem_filter.2 ⟨(mem_dedupFirst t _).2 h, ?_⟩)
    exact decide_eq_true hs

lemma vocabLookup_special (tok : String → List String)
    (corpus : List String) {a : String} (ha : a ∈ specials) :
    vocabLookup (loadVoc tok corpus) a = tokenIndex specials a := by
  have hmem : a ∈ loadVoc tok corpus := List.mem_append_left _ ha
  rw [vocabLookup, if_pos hmem, loadVoc, tokenIndex_append_of_mem _ ha]

/-- Demonstration corpus of the end-to-end vocabulary scenario. -/
def demoCorpus : List String :=
  ["the cat sat", "the dog ran"]

/-- Tokenizer of the demonstration scenario: the spacy tokenizer is an
external collaborator; on these two plain lines it splits on spaces. -/
def demoTok (s : String) : List String :=
  if s = "the cat sat" then ["the", "cat", "sat"]
  else if s = "the dog ran" then ["the", "dog", "ran"]
  else []

/-- C7: every vocabulary built by `loadVoc` contains the four reserved
symbols `<unk>`, `<pad>`, `<bos>`, `<eos>` at the four distinct indices
0, 1, 2, 3, whatever the corpus; and for the corpus
["the cat sat", "the dog ran"] the token "the" (seen twice) receives a
smaller index than each of "cat", "sat", "dog", "ran" (each seen
once). -/
theorem loadVoc_reserved_indices (tok : String → List String)
    (corpus : List String) (h : corpus ≠ []) :
    ((∀ a ∈ specials, a ∈ loadVoc tok corpus)
      ∧ vocabLookup (loadVoc tok corpus) "<unk>" = 0
      ∧ vocabLookup (loadVoc tok corpus) "<pad>" = 1
      ∧ vocabLookup (loadVoc tok corpus) "<bos>" = 2
      ∧ vocabLookup (loadVoc tok corpus) "<eos>" = 3)
    ∧ (vocabLookup (loadVoc demoTok demoCorpus) "the"
          < vocabLookup (loadVoc demoTok demoCorpus) "cat"
      ∧ vocabLookup (loadVoc demoTok demoCorpus) "the"
          < vocabLookup (loadVoc demoTok demoCorpus) "sat"
      ∧ vocabLookup (loadVoc demoTok demoCorpus) "the"
          < vocabLookup (loadVoc demoTok demoCorpus) "dog"
      ∧ vocabLookup (loadVoc demoTok demoCorpus) "the"
          < vocabLookup (loadVoc demoTok demoCorpus) "ran") := by
  constructor
  · refine ⟨fun a ha => List.mem_append_left _ ha, ?_, ?_, ?_, ?_⟩ <;>
    · rw [vocabLookup_special tok corpus (by decide)]
      decide
  · exact ⟨by decide, by decide, by decide, by decide⟩

/-- Witness for C7 at the demonstration corpus itself. -/
theorem loadVoc_reserved_indices_witness :
    demoCorpus ≠ []
    ∧ ((∀ a ∈ specials, a ∈ loadVoc demoTok demoCorpus)
      ∧ vocabLookup (loadVoc demoTok demoCorpus) "<unk>" = 0
      ∧ vocabLookup (loadVoc demoTok demoCorpus) "<pad>" = 1
      ∧ vocabLookup (loadVoc demoTok demoCorpus) "<bos>" = 2
      ∧ vocabLookup (loadVoc demoTok demoCorpus) "<eos>" = 3) :=
  ⟨by decide, (loadVoc_reserved_indices demoTok demoCorpus (by decide)).1⟩

/-- C8 counterexample: the reserved symbol `<pad>` is a token string not
present in the training corpus, yet lookup on the finalized vocabulary
returns its reserved index 1, not the unknown index 0, so the claim
fails as stated. -/
theorem vocabLookup_unseen_cex :
    "<pad>" ∉ tokenStream demoTok demoCorpus
    ∧ vocabLookup (loadVoc demoTok demoCorpus) "<unk>" = 0
    ∧ vocabLookup (loadVoc demoTok demoCorpus) "<pad>" ≠ 0 := by
  decide

lemma tokenIndex_loadVoc_ne_zero (tok : String → List String)
    (corpus : List String) {t : String} (hs : t ∉ specials) :
    tokenIndex (loadVoc tok corpus) t ≠ 0 := by
  have hne : ¬("<unk>" = t) :=
    fun hc => hs (hc ▸ (by decide : ("<unk>" : String) ∈ specials))
  have hv : loadVoc tok corpus
      = "<unk>" :: (["<pad>", "<bos>", "<eos>"]
          ++ (dedupFirst (tokenStream tok corpus)).filter
            (fun t => decide (t ∉ specials))) := rfl
  rw [hv]
  simp only [tokenIndex, if_neg hne]
  exact Nat.succ_ne_zero _

/-- C8 (amended): for every token that is neither in the training corpus
nor one of the four reserved symbols, lookup on the finalized vocabulary
returns the unknown index 0 and never raises (lookup is total by
construction); and every non-reserved token seen in the corpus receives
an index distinct from the unknown index, distinct tokens receiving
distinct indices. -/
theorem vocabLookup_unseen_amended (tok : String → List String)
    (corpus : List String) (t : String) (hs : t ∉ specials) :
    (t ∉ tokenStream tok corpus → vocabLookup (loadVoc tok corpus) t = 0)
    ∧ (t ∈ tokenStream tok corpus →
        vocabLookup (loadVoc tok corpus) t ≠ 0
        ∧ ∀ u ∈ tokenStream tok corpus, u ∉ specials → u ≠ t →
            vocabLookup (loadVoc tok corpus) u
              ≠ vocabLookup (loadVoc tok corpus) t) := by
  constructor
  · intro hnot
    have hmem : t ∉ loadVoc tok corpus :=
      fun hc => hnot ((mem_loadVoc tok corpus hs).1 hc)
    rw [vocabLookup, if_neg hmem, loadVoc,
      tokenIndex_append_of_mem _ (by decide : ("<unk>" : String) ∈ specials)]
    decide
  · intro hin
    have hmem : t ∈ loadVoc tok corpus := (mem_loadVoc tok corpus hs).2 hin
    constructor
    · rw [vocabLookup, if_pos hmem]
      exact tokenIndex_loadVoc_ne_zero tok corpus hs
    · intro u hu hus hut
      have humem : u ∈ loadVoc tok corpus := (mem_loadVoc tok corpus hus).2 hu
      rw [vocabLookup, if_pos humem, vocabLookup, if_pos hmem]
      exact tokenIndex_inj humem hmem hut

/-- Witness for the amended C8 at the unseen token "zebra" over the
demonstration corpus. -/
theorem vocabLookup_unseen_amended_witness :
    ("zebra" ∉ specials)
    ∧ (("zebra" ∉ tokenStream demoTok demoCorpus →
          vocabLookup (loadVoc demoTok demoCorpus) "zebra" = 0)
      ∧ ("zebra" ∈ tokenStream demoTok demoCorpus →
          vocabLookup (loadVoc demoTok demoCorpus) "zebra" ≠ 0
          ∧ ∀ u ∈ tokenStream demoTok demoCorpus, u ∉ specials →
              u ≠ "zebra" →
              vocabLookup (loadVoc demoTok demoCorpus) u
                ≠ vocabLookup (loadVoc demoTok demoCorpus) "zebra")) :=
  ⟨by decide, vocabLookup_unseen_amended demoTok demoCorpus "zebra" (by decide)⟩

/-- C10: every pair of vocabularies built by `loadVoc` assigns `<pad>`
to index 1, `<bos>` to 2 and `<eos>` to 3, so `generate_batch`, which
brackets and pads both language batches with the German indices only,
produces the same batches as using each language with its own reserved
indices. -/
theorem shared_special_indices (cDe cEn : List String)
    (tDe tEn : String → List String) (data : List (List ℕ × List ℕ)) :
    (vocabLookup (loadVoc tDe cDe) "<pad>" = 1
      ∧ vocabLookup (loadVoc tEn cEn) "<pad>" = 1
      ∧ vocabLookup (loadVoc tDe cDe) "<bos>" = 2
      ∧ vocabLookup (loadVoc tEn cEn) "<bos>" = 2
      ∧ vocabLookup (loadVoc tDe cDe) "<eos>" = 3
      ∧ vocabLookup (loadVoc tEn cEn) "<eos>" = 3)
    ∧ generate_batch (vocabLookup (loadVoc tDe cDe) "<bos>")
        (vocabLookup (loadVoc tDe cDe) "<eos>")
        (vocabLookup (loadVoc tDe cDe) "<pad>") data
      = generate_batch (vocabLookup (loadVoc tEn cEn) "<bos>")
          (vocabLookup (loadVoc tEn cEn) "<eos>")
          (vocabLookup (loadVoc tEn cEn) "<pad>") data := by
  have hDe1 : vocabLookup (loadVoc tDe cDe) "<pad>" = 1 := by
    rw [vocabLookup_special tDe cDe (by decide)]
    decide
  have hEn1 : vocabLookup (loadVoc tEn cEn) "<pad>" = 1 := by
    rw [vocabLookup_special tEn cEn (by decide)]
    decide
  have hDe2 : vocabLookup (loadVoc tDe cDe) "<bos>" = 2 := by
    rw [vocabLookup_special tDe cDe (by decide)]
    decide
  have hEn2 : vocabLookup (loadVoc tEn cEn) "<bos>" = 2 := by
    rw [vocabLookup_special tEn cEn (by decide)]
    decide
  have hDe3 : vocabLookup (loadVoc tDe cDe) "<eos>" = 3 := by
    rw [vocabLookup_special tDe cDe (by decide)]
    decide
  have hEn3 : vocabLookup (loadVoc tEn cEn) "<eos>" = 3 := by
    rw [vocabLookup_special tEn cEn (by decide)]
    decide
  exact ⟨⟨hDe1, hEn1, hDe2, hEn2, hDe3, hEn3⟩,
    by rw [hDe1, hEn1, hDe2, hEn2, hDe3, hEn3]⟩

/-! ### Sequence-to-sequence driver (`Seq2Seq.forward`)

The encoder and decoder are learned networks built from framework
primitives; the driver treats them as black boxes, so they enter the
model as function parameters.  A decoder step maps (input token per
batch element, decoder state, encoder outputs) to (logits rows, next
state), exactly the call shape of `self.decoder(output, hidden,
encoder_outputs)`.  Randomness is a stream of draws `rand t`, one per
timestep, standing for `random.random()`. -/

section Driver

variable {E H : Type}

/-- Greedy prediction `output.max(1)[1]` for one batch element: the
index of the first maximal logit. -/
def argmaxAux : List ℚ → ℕ → ℕ → ℚ → ℕ
  | [], _, bi, _ => bi
  | x :: xs, i, bi, bv =>
    if bv < x then argmaxAux xs (i + 1) i x else argmaxAux xs (i + 1) bi bv

/-- Index of the first maximal element of a logits row (0 on an empty
row). -/
def argmaxRow : List ℚ → ℕ
  | [] => 0
  | x :: xs => argmaxAux xs 1 0 x

/-- Choice of the next decoder input at timestep `t`: the source draws
`random.random() < teacher_forcing_ratio` and feeds the ground-truth
row `trg[t]` on success, the greedy prediction `top1` otherwise. -/
def nextInput (trg : List (List ℕ)) (rand : ℕ → ℚ) (p : ℚ) (t : ℕ)
    (out : List (List ℚ)) : List ℕ :=
  if rand t < p then trg.getD t [] else out.map argmaxRow

/-- Decoding loop of `Seq2Seq.forward`: the logits rows of `n`
consecutive timesteps starting at timestep `t`, from decoder input
`input` and decoder state `hidden`. -/
def s2sSteps (dec : List ℕ → H → E → List (List ℚ) × H) (encOut : E)
    (trg : List (List ℕ)) (rand : ℕ → ℚ) (p : ℚ) :
    ℕ → ℕ → List ℕ → H → List (List (List ℚ))
  | 0, _, _, _ => []
  | n + 1, t, input, hidden =>
    (dec input hidden encOut).1 ::
      s2sSteps dec encOut trg rand p n (t + 1)
        (nextInput trg rand p t (dec input hidden encOut).1)
        (dec input hidden encOut).2

/-- Model of `Seq2Seq.forward`: allocate a zero logits row per target
timestep, run the encoder, feed the start row `trg[0]` directly, and
fill rows 1 to L-1 with the decoding loop; row 0 is never written. -/
def seq2seqForward (enc : List (List ℕ) → E × H)
    (dec : List ℕ → H → E → List (List ℚ) × H) (V : ℕ) (rand : ℕ → ℚ)
    (p : ℚ) (src trg : List (List ℕ)) : List (List (List ℚ)) :=
  match trg with
  | [] => []
  | t0 :: _ =>
    List.replicate (src.headD []).length (List.replicate V (0 : ℚ)) ::
      s2sSteps dec (enc src).1 trg rand p (trg.length - 1) 1 t0 (enc src).2

/-- Iterated decoder transition: `stepIter k t s` is the (input, state)
pair reached after `k` decoder steps starting from `s` at timestep
`t`. -/
def stepIter (dec : List ℕ → H → E → List (List ℚ) × H) (encOut : E)
    (trg : List (List ℕ)) (rand : ℕ → ℚ) (p : ℚ) :
    ℕ → ℕ → List ℕ × H → List ℕ × H
  | 0, _, s => s
  | k + 1, t, s =>
    stepIter dec encOut trg rand p k (t + 1)
      (nextInput trg rand p t (dec s.1 s.2 encOut).1, (dec s.1 s.2 encOut).2)

/-- Decoder input and state immediately before timestep `k + 1` of the
driver loop: entry 0 is the start row `trg[0]` with the encoder summary
state, and each later entry advances one decoder step and applies the
next-input choice of that timestep. -/
def s2sState (dec : List ℕ → H → E → List (List ℚ) × H) (encOut : E)
    (trg : List (List ℕ)) (rand : ℕ → ℚ) (p : ℚ) (h0 : H) :
    ℕ → List ℕ × H
  | 0 => (trg.headD [], h0)
  | k + 1 =>
    (nextInput trg rand p (k + 1)
        (dec (s2sState dec encOut trg rand p h0 k).1
          (s2sState dec encOut trg rand p h0 k).2 encOut).1,
      (dec (s2sState dec encOut trg rand p h0 k).1
        (s2sState dec encOut trg rand p h0 k).2 encOut).2)

lemma s2sSteps_length (dec : List ℕ → H → E → List (List ℚ) × H)
    (encOut : E) (trg : List (List ℕ)) (rand : ℕ → ℚ) (p : ℚ) :
    ∀ (n t : ℕ) (input : List ℕ) (hidden : H),
      (s2sSteps dec encOut trg rand p n t input hidden).length = n := by
  intro n
  induction n with
  | zero => intro t input hidden; rfl
  | succ n ih =>
    intro t input hidden
    simp only [s2sSteps, List.length_cons, ih]

lemma stepIter_succ (dec : List ℕ → H → E → List (List ℚ) × H)
    (encOut : E) (trg : List (List ℕ)) (rand : ℕ → ℚ) (p : ℚ) :
    ∀ (k t : ℕ) (s : List ℕ × H),
      stepIter dec encOut trg rand p (k + 1) t s
        = (nextInput trg rand p (t + k)
            (dec (stepIter dec encOut trg rand p k t s).1
              (stepIter dec encOut trg rand p k t s).2 encOut).1,
          (dec (stepIter dec encOut trg rand p k t s).1
            (stepIter dec encOut trg rand p k t s).2 encOut).2) := by
  intro k
  induction k with
  | zero =>
    intro t s
    simp [stepIter]
  | succ k ih =>
    intro t s
    rw [stepIter, ih (t + 1)]
    rw [stepIter]
    have ht : t + 1 + k = t + (k + 1) := by omega
    rw [ht]

lemma s2sState_eq_stepIter (dec : List ℕ → H → E → List (List ℚ) × H)
    (encOut : E) (trg : List (List ℕ)) (rand : ℕ → ℚ) (p : ℚ) (h0 : H) :
    ∀ k : ℕ, s2sState dec encOut trg rand p h0 k
      = stepIter dec encOut trg rand p k 1 (trg.headD [], h0) := by
  intro k
  induction k with
  | zero => rfl
  | succ k ih =>
    rw [s2sState, ih, stepIter_succ]
    have ht : 1 + k = k + 1 := by omega
    rw [ht]

lemma s2sSteps_getD (dec : List ℕ → H → E → List (List ℚ) × H)
    (encOut : E) (trg : List (List ℕ)) (rand : ℕ → ℚ) (p : ℚ) :
    ∀ (k n t : ℕ) (s : List ℕ × H), k < n →
      (s2sSteps dec encOut trg rand p n t s.1 s.2).getD k []
        = (dec (stepIter dec encOut trg rand p k t s).1
            (stepIter dec encOut trg rand p k t s).2 encOut).1 := by
  intro k
  induction k with
  | zero =>
    intro n t s hk
    match n, hk with
    | m + 1, _ => rfl
  | succ k ih =>
    intro n t s hk
    match n, hk with
    | m + 1, hk =>
      have hkm : k < m := by omega
      have := ih m (t + 1)
        (nextInput trg rand p t (dec s.1 s.2 encOut).1, (dec s.1 s.2 encOut).2)
        hkm
      simp only [s2sSteps, List.getD_cons_succ]
      rw [this, stepIter]

end Driver

/-- Teacher-forcing probability used by the evaluation loop: the source
calls `model(src, trg, 0)` there. -/
def evalTeacherForcing : ℚ := 0

/-- C4: for every source batch and every target batch with L >= 1
timesteps, the forward pass returns exactly L logits rows; row 0 is the
all-zero row (the start token is fed directly and never scored), and
each row k+1 with k+1 <= L-1 equals the decoder output logits computed
at step k+1, i.e. the decoder applied to the input and state reached
before that step. -/
theorem seq2seqForward_rows {E H : Type} (enc : List (List ℕ) → E × H)
    (dec : List ℕ → H → E → List (List ℚ) × H) (V : ℕ) (rand : ℕ → ℚ)
    (p : ℚ) (src trg : List (List ℕ)) (hL : 1 ≤ trg.length) :
    (seq2seqForward enc dec V rand p src trg).length = trg.length
    ∧ (seq2seqForward enc dec V rand p src trg).getD 0 []
        = List.replicate (src.headD []).length (List.replicate V (0 : ℚ))
    ∧ (∀ row ∈ (seq2seqForward enc dec V rand p src trg).getD 0 [],
        ∀ x ∈ row, x = (0 : ℚ))
    ∧ ∀ k : ℕ, k + 1 < trg.length →
        (seq2seqForward enc dec V rand p src trg).getD (k + 1) []
          = (dec (s2sState dec (enc src).1 trg rand p (enc src).2 k).1
              (s2sState dec (enc src).1 trg rand p (enc src).2 k).2
              (enc src).1).1 := by
  cases trg with
  | nil => simp at hL
  | cons t0 rest =>
    refine ⟨?_, rfl, ?_, ?_⟩
    · simp only [seq2seqForward, List.length_cons, s2sSteps_length]
      omega
    · intro row hrow x hx
      have hr := List.eq_of_mem_replicate hrow
      rw [hr] at hx
      exact List.eq_of_mem_replicate hx
    · intro k hk
      simp only [seq2seqForward, List.getD_cons_succ, s2sState_eq_stepIter,
        List.headD_cons]
      exact s2sSteps_getD dec (enc src).1 (t0 :: rest) rand p k
        ((t0 :: rest).length - 1) 1 (t0, (enc src).2) (by simpa using hk)

/-- Constant encoder of the driver witnesses. -/
def wEnc : List (List ℕ) → Unit × Unit := fun _ => ((), ())

/-- Constant decoder of the driver witnesses: one batch element, two
vocabulary entries, logits [1, 2]. -/
def wDec : List ℕ → Unit → Unit → List (List ℚ) × Unit :=
  fun _ _ _ => ([[1, 2]], ())

/-- Target batch of the driver witnesses (three timesteps, batch 1). -/
def wTrg : List (List ℕ) := [[0], [4], [5]]

/-- Source batch of the driver witnesses (one timestep, batch 1). -/
def wSrc : List (List ℕ) := [[7]]

/-- Random stream of the driver witnesses. -/
def wRand : ℕ → ℚ := fun _ => 1 / 2

/-- Witness for C4 at a concrete one-element batch with three target
timesteps. -/
theorem seq2seqForward_rows_witness :
    1 ≤ wTrg.length
    ∧ ((seq2seqForward wEnc wDec 2 wRand 0 wSrc wTrg).length = wTrg.length
      ∧ (seq2seqForward wEnc wDec 2 wRand 0 wSrc wTrg).getD 0 []
          = List.replicate (wSrc.headD []).length (List.replicate 2 (0 : ℚ))
      ∧ (∀ row ∈ (seq2seqForward wEnc wDec 2 wRand 0 wSrc wTrg).getD 0 [],
          ∀ x ∈ row, x = (0 : ℚ))
      ∧ ∀ k : ℕ, k + 1 < wTrg.length →
          (seq2seqForward wEnc wDec 2 wRand 0 wSrc wTrg).getD (k + 1) []
            = (wDec (s2sState wDec (wEnc wSrc).1 wTrg wRand 0 (wEnc wSrc).2 k).1
                (s2sState wDec (wEnc wSrc).1 wTrg wRand 0 (wEnc wSrc).2 k).2
                (wEnc wSrc).1).1) :=
  ⟨by decide, seq2seqForward_rows wEnc wDec 2 wRand 0 wSrc wTrg (by decide)⟩

/-- C5: at each decoding timestep k+1 the next decoder input is an
independent draw: the ground-truth row trg[k+1] when the draw is below
the teacher-forcing probability, the argmax over the vocabulary
dimension of the logits just computed at that step otherwise; and with
the probability 0 that `evaluate` passes, a draw of `random.random()`
(always nonnegative) never selects ground truth, so the next input is
always the greedy prediction. -/
theorem next_input_choice {E H : Type}
    (dec : List ℕ → H → E → List (List ℚ) × H) (encOut : E)
    (trg : List (List ℕ)) (rand : ℕ → ℚ) (p : ℚ) (h0 : H) (k : ℕ) :
    ((s2sState dec encOut trg rand p h0 (k + 1)).1
        = if rand (k + 1) < p then trg.getD (k + 1) []
          else ((dec (s2sState dec encOut trg rand p h0 k).1
              (s2sState dec encOut trg rand p h0 k).2 encOut).1).map argmaxRow)
    ∧ (0 ≤ rand (k + 1) →
        (s2sState dec encOut trg rand evalTeacherForcing h0 (k + 1)).1
          = ((dec (s2sState dec encOut trg rand evalTeacherForcing h0 k).1
              (s2sState dec encOut trg rand evalTeacherForcing h0 k).2
              encOut).1).map argmaxRow) := by
  constructor
  · simp only [s2sState, nextInput]
  · intro hr
    simp only [s2sState, nextInput, evalTeacherForcing,
      if_neg (not_lt.2 hr)]

/-- Witness for C5 at the concrete driver instance, timestep 1. -/
theorem next_input_choice_witness :
    (((s2sState wDec () wTrg wRand (1 / 4) () 1).1
        = if wRand 1 < 1 / 4 then wTrg.getD 1 []
          else ((wDec (s2sState wDec () wTrg wRand (1 / 4) () 0).1
              (s2sState wDec () wTrg wRand (1 / 4) () 0).2 ()).1).map argmaxRow)
      ∧ (0 ≤ wRand 1 →
          (s2sState wDec () wTrg wRand evalTeacherForcing () 1).1
            = ((wDec (s2sState wDec () wTrg wRand evalTeacherForcing () 0).1
                (s2sState wDec () wTrg wRand evalTeacherForcing () 0).2
                ()).1).map argmaxRow))
    ∧ 0 ≤ wRand 1
    ∧ (s2sState wDec () wTrg wRand evalTeacherForcing () 1).1
        = ((wDec (s2sState wDec () wTrg wRand evalTeacherForcing () 0).1
            (s2sState wDec () wTrg wRand evalTeacherForcing () 0).2
            ()).1).map argmaxRow := by
  have h := next_input_choice wDec () wTrg wRand (1 / 4) () 0
  have h0 := next_input_choice wDec () wTrg wRand evalTeacherForcing () 0
  have hr : (0 : ℚ) ≤ wRand 1 := by norm_num [wRand]
  exact ⟨⟨h.1, (next_input_choice wDec () wTrg wRand evalTeacherForcing () 0).2⟩,
    hr, h0.2 hr⟩

/-! ### Evaluation loop (`evaluate`) -/

/-- Loss of one batch inside `evaluate`: the forward pass runs with
teacher forcing 0, its rows after timestep 0 and the targets after
timestep 0 are flattened time-major, and the criterion (a function
argument of `evaluate` in the source) is applied. -/
def evalBatchLoss {E H : Type} (enc : List (List ℕ) → E × H)
    (dec : List ℕ → H → E → List (List ℚ) × H) (V : ℕ)
    (criterion : List (List ℚ) → List ℕ → ℚ) (rand : ℕ → ℚ)
    (b : List (List ℕ) × List (List ℕ)) : ℚ :=
  criterion
    (((seq2seqForward enc dec V rand evalTeacherForcing b.1 b.2).drop 1).flatten)
    ((b.2.drop 1).flatten)

/-- Model of `evaluate`: mean of the per-batch losses over the iterator,
with an independent stream of random draws per batch.  The model runs in
eval mode under no_grad, so the encoder and decoder are fixed functions
and no call mutates them or carries decoder state to the next call. -/
def evaluateLoss {E H : Type} (enc : List (List ℕ) → E × H)
    (dec : List ℕ → H → E → List (List ℚ) × H) (V : ℕ)
    (criterion : List (List ℚ) → List ℕ → ℚ)
    (batches : List (List (List ℕ) × List (List ℕ)))
    (rand : ℕ → ℕ → ℚ) : ℚ :=
  ((batches.enum.map
      (fun ib => evalBatchLoss enc dec V criterion (rand ib.1) ib.2)).sum)
    / (batches.length : ℚ)

lemma s2sSteps_rand_indep {E H : Type}
    (dec : List ℕ → H → E → List (List ℚ) × H) (encOut : E)
    (trg : List (List ℕ)) (r1 r2 : ℕ → ℚ)
    (h1 : ∀ t, 0 ≤ r1 t) (h2 : ∀ t, 0 ≤ r2 t) :
    ∀ (n t : ℕ) (input : List ℕ) (hidden : H),
      s2sSteps dec encOut trg r1 0 n t input hidden
        = s2sSteps dec encOut trg r2 0 n t input hidden := by
  intro n
  induction n with
  | zero => intro t input hidden; rfl
  | succ n ih =>
    intro t input hidden
    simp only [s2sSteps, nextInput, if_neg (not_lt.2 (h1 t)),
      if_neg (not_lt.2 (h2 t))]
    rw [ih]

lemma seq2seqForward_rand_indep {E H : Type} (enc : List (List ℕ) → E × H)
    (dec : List ℕ → H → E → List (List ℚ) × H) (V : ℕ)
    (src trg : List (List ℕ)) (r1 r2 : ℕ → ℚ)
    (h1 : ∀ t, 0 ≤ r1 t) (h2 : ∀ t, 0 ≤ r2 t) :
    seq2seqForward enc dec V r1 evalTeacherForcing src trg
      = seq2seqForward enc dec V r2 evalTeacherForcing src trg := by
  cases trg with
  | nil => rfl
  | cons t0 rest =>
    simp only [seq2seqForward, evalTeacherForcing]
    rw [s2sSteps_rand_indep dec (enc src).1 (t0 :: rest) r1 r2 h1 h2]

/-- C6: running the evaluation loop twice on the same batch iterable
with the same model yields the same mean loss both times: with teacher
forcing 0 the per-step draw (a nonnegative value of `random.random()`)
never selects ground truth, so the result does not depend on the random
streams of the two runs, and the model enters both runs as the same
unchanged functions. -/
theorem evaluate_twice_same_loss {E H : Type} (enc : List (List ℕ) → E × H)
    (dec : List ℕ → H → E → List (List ℚ) × H) (V : ℕ)
    (criterion : List (List ℚ) → List ℕ → ℚ)
    (batches : List (List (List ℕ) × List (List ℕ)))
    (r1 r2 : ℕ → ℕ → ℚ)
    (h1 : ∀ i t, 0 ≤ r1 i t) (h2 : ∀ i t, 0 ≤ r2 i t) :
    evaluateLoss enc dec V criterion batches r1
      = evaluateLoss enc dec V criterion batches r2 := by
  unfold evaluateLoss
  congr 1
  apply congrArg
  apply List.map_congr_left
  rintro ⟨i, b⟩ hib
  unfold evalBatchLoss
  rw [seq2seqForward_rand_indep enc dec V b.1 b.2 (r1 i) (r2 i) (h1 i) (h2 i)]

/-- Criterion of the evaluation witness. -/
def wCrit : List (List ℚ) → List ℕ → ℚ :=
  fun outs _ => outs.flatten.sum

/-- First random stream of the evaluation witness. -/
def wRandA : ℕ → ℕ → ℚ := fun _ _ => 0

/-- Second random stream of the evaluation witness. -/
def wRandB : ℕ → ℕ → ℚ := fun _ _ => 1 / 2

/-- Witness for C6 at a concrete one-batch iterator and two different
random streams. -/
theorem evaluate_twice_same_loss_witness :
    (∀ i t, 0 ≤ wRandA i t) ∧ (∀ i t, 0 ≤ wRandB i t)
    ∧ evaluateLoss wEnc wDec 2 wCrit [(wSrc, wTrg)] wRandA
        = evaluateLoss wEnc wDec 2 wCrit [(wSrc, wTrg)] wRandB := by
  have ha : ∀ i t, (0 : ℚ) ≤ wRandA i t := fun _ _ => le_refl 0
  have hb : ∀ i t, (0 : ℚ) ≤ wRandB i t := by
    intro i t
    norm_num [wRandB]
  exact ⟨ha, hb,
    evaluate_twice_same_loss wEnc wDec 2 wCrit [(wSrc, wTrg)] wRandA wRandB ha hb⟩

/-! ### Training-step loss (`train` with `nn.CrossEntropyLoss`) -/

/-- Negative log-likelihood of one flattened position, the per-row term
of `nn.CrossEntropyLoss`: log of the sum of exponentials of the logits
minus the logit of the target class. -/
noncomputable def rowNLL (row : List ℝ) (t : ℕ) : ℝ :=
  Real.log ((row.map Real.exp).sum) - row.getD t 0

/-- Flattened positions kept by the loss: `ignore_index` drops every
position whose target equals the padding index. -/
def keptPairs (pad : ℕ) (logits : List (List ℝ)) (targets : List ℕ) :
    List (List ℝ × ℕ) :=
  (logits.zip targets).filter (fun q => decide (q.2 ≠ pad))

/-- Model of `nn.CrossEntropyLoss(ignore_index = pad)` with its default
mean reduction: mean of the per-position negative log-likelihoods over
the non-ignored positions. -/
noncomputable def crossEntropyLoss (pad : ℕ) (logits : List (List ℝ))
    (targets : List ℕ) : ℝ :=
  ((keptPairs pad logits targets).map (fun q => rowNLL q.1 q.2)).sum
    / ((keptPairs pad logits targets).length : ℝ)

/-- Loss of one training step: the source flattens `output[1:]` and
`trg[1:]` time-major and applies the criterion. -/
noncomputable def trainStepLoss (pad : ℕ) (outputs : List (List (List ℝ)))
    (trg : List (List ℕ)) : ℝ :=
  crossEntropyLoss pad ((outputs.drop 1).flatten) ((trg.drop 1).flatten)

/-- Pointwise agreement of two flattened logit tensors away from padding
positions: equal lengths, and equal rows wherever the target is not the
padding index. -/
def agreeOffPad (pad : ℕ) :
    List (List ℝ) → List (List ℝ) → List ℕ → Prop
  | [], [], _ => True
  | x :: xs, y :: ys, t :: ts => (t = pad ∨ x = y) ∧ agreeOffPad pad xs ys ts
  | _, _, _ => False

lemma keptPairs_cons (pad : ℕ) (x : List ℝ) (xs : List (List ℝ)) (t : ℕ)
    (ts : List ℕ) :
    keptPairs pad (x :: xs) (t :: ts)
      = if t ≠ pad then (x, t) :: keptPairs pad xs ts
        else keptPairs pad xs ts := by
  by_cases ht : t = pad <;> simp [keptPairs, List.filter_cons, ht]

lemma keptPairs_congr (pad : ℕ) :
    ∀ (xs ys : List (List ℝ)) (ts : List ℕ), agreeOffPad pad xs ys ts →
      keptPairs pad xs ts = keptPairs pad ys ts := by
  intro xs
  induction xs with
  | nil =>
    intro ys ts h
    cases ys with
    | nil => rfl
    | cons y ys => exact absurd h (by cases ts <;> simp [agreeOffPad])
  | cons x xs ih =>
    intro ys ts h
    cases ys with
    | nil => exact absurd h (by cases ts <;> simp [agreeOffPad])
    | cons y ys =>
      cases ts with
      | nil => exact absurd h (by simp [agreeOffPad])
      | cons t ts =>
        obtain ⟨h1, h2⟩ := h
        by_cases ht : t = pad
        · rw [keptPairs_cons, keptPairs_cons, if_neg (by simp [ht]),
            if_neg (by simp [ht])]
          exact ih ys ts h2
        · have hxy : x = y := h1.resolve_left ht
          rw [keptPairs_cons, keptPairs_cons, if_pos ht, if_pos ht, hxy,
            ih ys ts h2]

/-- C2: the training-step loss ignores every flattened position whose
target (at timesteps 1 and later) equals the padding index: two logit
tensors that agree at every non-padding position after timestep 0 yield
exactly the same cross-entropy loss value. -/
theorem trainStepLoss_ignores_padding (pad : ℕ)
    (o1 o2 : List (List (List ℝ))) (trg : List (List ℕ))
    (h : agreeOffPad pad ((o1.drop 1).flatten) ((o2.drop 1).flatten)
      ((trg.drop 1).flatten)) :
    trainStepLoss pad o1 trg = trainStepLoss pad o2 trg := by
  unfold trainStepLoss crossEntropyLoss
  rw [keptPairs_congr pad _ _ _ h]

/-- First logit tensor of the padding witness. -/
def wOut1 : List (List (List ℝ)) := [[[9, 9]], [[1, 2], [3, 4]]]

/-- Second logit tensor of the padding witness: differs from the first
exactly at the flattened position whose target is the padding index 1,
and at the never-scored timestep 0. -/
def wOut2 : List (List (List ℝ)) := [[[0, 0]], [[1, 2], [5, 6]]]

/-- Target tensor of the padding witness. -/
def wTrgR : List (List ℕ) := [[0], [0, 1]]

/-- Witness for C2 at concrete tensors differing only at a padding
position. -/
theorem trainStepLoss_ignores_padding_witness :
    agreeOffPad 1 ((wOut1.drop 1).flatten) ((wOut2.drop 1).flatten)
      ((wTrgR.drop 1).flatten)
    ∧ trainStepLoss 1 wOut1 wTrgR = trainStepLoss 1 wOut2 wTrgR := by
  have h : agreeOffPad 1 ((wOut1.drop 1).flatten) ((wOut2.drop 1).flatten)
      ((wTrgR.drop 1).flatten) := by
    simp [agreeOffPad, wOut1, wOut2, wTrgR]
  exact ⟨h, trainStepLoss_ignores_padding 1 wOut1 wOut2 wTrgR h⟩

/-! ### BLEU helper (`testBleuScore`) -/

/-- One pass of the `testBleuScore` loop, threading the Python local
`output_words`: the try block calls the (external, fallible) evaluation,
`except RuntimeError: pass` leaves `output_words` at its previous value,
and the two scoring lines after the try block always run, joining
whatever `output_words` currently holds and appending a score for the
current reference.  The result is the list of (joined prediction,
reference) pairs handed to `sentence_bleu`, or `none` when the very
first evaluation fails and `output_words` is read while still undefined
(a Python NameError, which the bare `except RuntimeError` does not
catch). -/
def bleuGo {α β : Type} (evalFn : α → Except Unit (List String)) :
    Option (List String) → List (α × β) → Option (List (String × β))
  | _, [] => some []
  | ow, (a, b) :: rest =>
    match (match evalFn a with
           | Except.ok w => some w
           | Except.error _ => ow) with
    | none => none
    | some w =>
      match bleuGo evalFn (some w) rest with
      | none => none
      | some l => some ((String.join w, b) :: l)

/-- Model of `testBleuScore`: the scoring calls made across all pairs,
starting with `output_words` undefined. -/
def testBleuScoreCalls {α β : Type}
    (evalFn : α → Except Unit (List String)) (pairs : List (α × β)) :
    Option (List (String × β)) :=
  bleuGo evalFn none pairs

/-- Evaluation function of the BLEU counterexample: example 0 evaluates
to ["hi"], every other example raises a RuntimeError. -/
def wEval : ℕ → Except Unit (List String) :=
  fun a => if a = 0 then Except.ok ["hi"] else Except.error ()

/-- C9 counterexample: with a first example evaluating to ["hi"] and a
second whose evaluation raises, the erroring example is still scored,
but with the joined prediction "hi" of the previous example, not an
empty prediction, so the claim fails as stated. -/
theorem bleu_empty_prediction_cex :
    wEval 1 = Except.error ()
    ∧ testBleuScoreCalls wEval [(0, 10), (1, 11)]
        = some [("hi", 10), ("hi", 11)]
    ∧ ("hi" : String) ≠ "" :=
  ⟨rfl, rfl, by decide⟩

lemma bleuGo_some_length {α β : Type}
    (evalFn : α → Except Unit (List String)) :
    ∀ (rest : List (α × β)) (w : List String),
      ∃ l, bleuGo evalFn (some w) rest = some l ∧ l.length = rest.length := by
  intro rest
  induction rest with
  | nil =>
    intro w
    exact ⟨[], rfl, rfl⟩
  | cons p rest ih =>
    intro w
    obtain ⟨a, b⟩ := p
    cases hev : evalFn a with
    | ok w2 =>
      obtain ⟨l, hl, hlen⟩ := ih w2
      refine ⟨(String.join w2, b) :: l, ?_, by simp [hlen]⟩
      simp only [bleuGo, hev, hl]
    | error e =>
      obtain ⟨l, hl, hlen⟩ := ih w
      refine ⟨(String.join w, b) :: l, ?_, by simp [hlen]⟩
      simp only [bleuGo, hev, hl]

/-- C9 (amended): a runtime error raised while evaluating one example is
caught and ignored and the loop continues, and the erroring example
still contributes a BLEU score to the mean, computed from the most
recent successful prediction (stale), not from an empty one; when the
error hits the very first example, the helper instead stops with a
NameError, because `output_words` was never assigned. -/
theorem bleu_error_contributes {α β : Type}
    (evalFn : α → Except Unit (List String)) (a1 a2 : α) (b1 b2 : β)
    (rest : List (α × β)) (w : List String)
    (h1 : evalFn a1 = Except.ok w) (h2 : evalFn a2 = Except.error ()) :
    (∃ l, testBleuScoreCalls evalFn ((a1, b1) :: (a2, b2) :: rest) = some l
        ∧ l.length = rest.length + 2
        ∧ l.getD 1 ("", b2) = (String.join w, b2))
    ∧ ∀ rest2 : List (α × β),
        testBleuScoreCalls evalFn ((a2, b2) :: rest2) = none := by
  constructor
  · obtain ⟨l3, hl3, hlen3⟩ := bleuGo_some_length evalFn rest w
    refine ⟨(String.join w, b1) :: (String.join w, b2) :: l3, ?_, ?_, rfl⟩
    · simp only [testBleuScoreCalls, bleuGo, h1, h2, hl3]
    · simp [hlen3]
  · intro rest2
    simp only [testBleuScoreCalls, bleuGo, h2]

/-- Witness for the amended C9 at the concrete evaluation function of
the counterexample. -/
theorem bleu_error_contributes_witness :
    wEval 0 = Except.ok ["hi"]
    ∧ wEval 1 = Except.error ()
    ∧ (∃ l, testBleuScoreCalls wEval [(0, 10), (1, 11)] = some l
        ∧ l.length = 0 + 2
        ∧ l.getD 1 ("", 11) = (String.join ["hi"], 11))
    ∧ ∀ rest2 : List (ℕ × ℕ),
        testBleuScoreCalls wEval ((1, 11) :: rest2) = none := by
  have h := bleu_error_contributes wEval 0 1 10 11 [] ["hi"] rfl rfl
  exact ⟨rfl, rfl, h.1, h.2⟩
